import Mathlib

/-!
Shallow embedding of `src/pendulum/tz/timezone.py`, the civil-time ⇄ instant
conversion engine of the pendulum repository, together with theorems settling
the frozen claims about it.

Representation choices:
* A naive wall-clock datetime is represented by its exact reading in seconds
  since the epoch 1970-01-01T00:00:00, as a rational number.  Microsecond
  arithmetic on Python datetimes is exact, subtraction of two datetimes
  followed by `total_seconds()` is subtraction of these readings, and the
  comparison operators agree with the rational order.
* An aware datetime additionally carries the `TimezoneInfo` tag the engine
  attaches (Python's `tzinfo` attribute).
* Transition instants are signed unix seconds (integers, as produced by the
  zone loader); intermediate instant arithmetic is rational.
* Raising `ValueError` is modelled by `Except.error` carrying the source's
  message.

The modules `transition.py`, `transition_type.py`, `timezone_info.py`,
`breakdown.py` and `loader.py` of the repository are not under `src/`; the
value types and collaborator interfaces they provide are modelled from the
spec (§3, §4.5, §6, §9) and marked `Modelled from the spec:` below.
-/

/-- Embeds `TransitionType` (spec §3: `{offsetSeconds: int32, isDst: bool,
abbreviation: string}`; the source reads the attributes `utc_offset`,
`is_dst`, `abbrev`).  The source attribute `abbrev` is renamed
`abbreviation` because `abbrev` is a Lean keyword. -/
structure TransitionType where
  utc_offset : Int
  is_dst : Bool
  abbreviation : String
deriving DecidableEq

/-- Modelled from the spec: the `Transition` value type (its module is not
under `src/`), spec §3.  Attribute names follow the source's accesses in
`timezone.py`: `unix_time` is the spec's `instant`, `time` its `wallAfter`,
`pre_time` its `wallBefore`, `transition_type` its `typeAfter` and
`pre_transition_type` its `typeBefore`. -/
structure Transition where
  unix_time : Int
  time : ℚ
  pre_time : ℚ
  transition_type : TransitionType
  pre_transition_type : TransitionType
deriving DecidableEq

/-- Modelled from the spec: the `ResolvedOffset` tag attached to every
produced datetime (spec §3); the source's `TimezoneInfo(self, offset,
is_dst, abbrev)` whose module is not under `src/`.  The owning zone is
recorded by name. -/
structure TimezoneInfo where
  zoneName : String
  offsetSeconds : Int
  isDst : Bool
  abbreviation : String
deriving DecidableEq

/-- A Python `datetime`: an exact wall-clock reading (seconds since the
epoch) plus the optional `tzinfo` tag. -/
structure DateTime where
  wall : ℚ
  tzinfo : Option TimezoneInfo
deriving DecidableEq

/-- The `microsecond` field of a Python datetime: the fractional part of the
wall reading, in microseconds (always in `[0, 10^6)`, also for pre-epoch
datetimes, because Python breaks a datetime down by flooring). -/
def DateTime.microsecond (dt : DateTime) : Int :=
  ⌊(dt.wall - ⌊dt.wall⌋) * 1000000⌋

/-- Embeds the `Timezone` class state (timezone.py lines 19–24): name, the
ordered transition table, the raw transition-type list (stored but never read
by the conversion logic) and the default transition type for pre-history
instants. -/
structure Timezone where
  name : String
  transitions : List Transition
  transition_types : List TransitionType
  default_transition_type : TransitionType
deriving DecidableEq

/-- Modelled from the spec: the external calendar-breakdown collaborator
`Breakdown.local_time` (its module is not under `src/`); spec §6: "pure
Gregorian calendar arithmetic, must handle negative instants (pre-1970)
correctly", §4.5.  The wall-clock reading of an instant under a transition
type is the instant shifted by the type's UTC offset. -/
def Breakdown.local_time (unix_time : ℚ) (transition_type : TransitionType) : ℚ :=
  unix_time + (transition_type.utc_offset : ℚ)

/-- Embeds `Timezone._to_local_time` (timezone.py lines 189–211): materialize
`(instant, type)` into a result datetime tagged with the resolved offset —
the explicit `offset` override when one is given, the type's offset
otherwise. -/
def Timezone._to_local_time (tz : Timezone) (unix_time : ℚ)
    (transition_type : TransitionType) (offset : Option Int) : DateTime :=
  { wall := Breakdown.local_time unix_time transition_type
    tzinfo := some
      { zoneName := tz.name
        offsetSeconds := offset.getD transition_type.utc_offset
        isDst := transition_type.is_dst
        abbreviation := transition_type.abbreviation } }

/-- Modelled from the spec: Python's `bisect_right` over the transition table
compared against a naive datetime.  The `Transition` comparison methods are
not under `src/`; spec §4.1/§9 define the ordering of a transition against a
wall-clock value via `wallAfter` (the `time` attribute, cf. the `PY2` branch
of timezone.py line 108 which maps the table through `t.time`).  On a table
sorted by that key, `bisect_right` returns the number of entries whose key
is ≤ the probe. -/
def bisect_right (keys : List ℚ) (x : ℚ) : Nat :=
  keys.countP (fun k => decide (k ≤ x))

/-- Modelled from the spec: Python's `bisect_right` over the transition table
compared against a numeric instant (timezone.py line 183); spec §4.4 orders
transitions against instants by `instant` ascending.  On a sorted table it
returns the number of transitions with `instant ≤ x`. -/
def bisectRightInstant (ts : List Transition) (x : ℚ) : Nat :=
  ts.countP (fun t => decide ((t.unix_time : ℚ) ≤ x))

/-- Embeds timezone.py lines 95–120: selection of the transition `tr` that
classifies a naive reading `dt` — the boundary shortcuts against the first
and last entries, the binary search, and the repeated-time look-back at the
previous entry.  `ts` is the full table, `tbegin`/`tend` its first/last
entries.  (`ts.getD idx tbegin` embeds `self._transitions[idx]`: under the
table invariants the index is always in range, so the default is never
used.) -/
def normTr (ts : List Transition) (tbegin tend : Transition) (dt : ℚ) : Transition :=
  if dt < tbegin.time then
    tbegin
  else if ¬ dt < tend.time then
    tend
  else
    let idx := max 0 (bisect_right (ts.map Transition.time) dt)
    let tr0 := ts.getD idx tbegin
    if 0 < idx then
      let pre_tr := ts.getD (idx - 1) tbegin
      if dt ≤ pre_tr.pre_time then pre_tr else tr0
    else
      tr0

/-- Embeds timezone.py lines 122–161: given the selected transition `tr`,
the `(unix_time, transition_type, offset override)` triple that `_normalize`
passes to `_to_local_time`.  The wall reading `dt` stands for
`(dt - datetime(1970, 1, 1)).total_seconds()` where the source subtracts the
epoch. -/
def normOutcome (default_tt : TransitionType) (tbegin tend tr : Transition)
    (dt : ℚ) : ℚ × TransitionType × Option Int :=
  if tr = tbegin then
    if ¬ tr.pre_time < dt then
      (dt - (default_tt.utc_offset : ℚ), tr.transition_type, some default_tt.utc_offset)
    else
      ((tr.unix_time : ℚ) - (tr.pre_time - dt), tr.transition_type, none)
  else if tr = tend then
    if tr.pre_time < dt then
      ((tr.unix_time : ℚ) + (dt - tr.time), tr.transition_type, none)
    else
      ((tr.unix_time : ℚ) + (dt - tr.time), tr.transition_type, none)
  else
    if tr.pre_time ≤ dt ∧ dt < tr.time then
      ((tr.unix_time : ℚ) - (tr.pre_time - dt), tr.transition_type, none)
    else if tr.time ≤ dt ∧ dt ≤ tr.pre_time then
      ((tr.unix_time : ℚ) + (dt - tr.time), tr.transition_type, none)
    else
      let diff0 := dt - tr.pre_time
      let diff :=
        if ((-1 : ℚ) < diff0 ∧ diff0 < 0) ∧ tr.unix_time < 0 then diff0 - 1 else diff0
      ((tr.unix_time : ℚ) + diff, tr.pre_transition_type, none)

/-- Embeds the computational core of `Timezone._normalize` (timezone.py lines
86–161): the `(unix_time, transition_type, offset override)` triple handed to
`_to_local_time` for a naive wall reading `dt`. -/
def Timezone.normalizeResolve (tz : Timezone) (dt : ℚ) : ℚ × TransitionType × Option Int :=
  match tz.transitions with
  | [] =>
    (dt - (tz.default_transition_type.utc_offset : ℚ), tz.default_transition_type, none)
  | t0 :: rest =>
    let tend := (t0 :: rest).getLast (List.cons_ne_nil t0 rest)
    normOutcome tz.default_transition_type t0 tend (normTr (t0 :: rest) t0 tend dt) dt

/-- Embeds `Timezone._normalize` (timezone.py lines 78–162). -/
def Timezone._normalize (tz : Timezone) (dt : DateTime) : Except String DateTime :=
  if dt.tzinfo.isSome then
    Except.error "A datetime with a tzinfo cannot be normalized. Use _convert() instead."
  else
    let r := tz.normalizeResolve dt.wall
    Except.ok (tz._to_local_time r.1 r.2.1 r.2.2)

/-- Embeds the aware-datetime branch of `Timezone._get_timestamp`
(timezone.py lines 213–228): `t = (dt - datetime(1970, 1, 1,
tzinfo=UTC)).total_seconds()` is the wall reading minus the tag's offset,
then one second is subtracted for fractional pre-epoch values.  The
`float_timestamp` duck-typing branch (spec §9 asks for its replacement) and
the naive branch, which `_convert` can never reach, are not modelled. -/
def Timezone._get_timestamp (dt : DateTime) (info : TimezoneInfo) : ℚ :=
  let t := dt.wall - (info.offsetSeconds : ℚ)
  if 0 < dt.microsecond ∧ t < 0 then t - 1 else t

/-- Embeds the transition-type selection of `Timezone._convert` (timezone.py
lines 180–185): the post-transition type of `transitions[max(0,
bisect_right(transitions, unix_time) - 1)]`, or the default type when the
table is empty. -/
def Timezone.convertType (tz : Timezone) (unix_time : ℚ) : TransitionType :=
  match tz.transitions with
  | [] => tz.default_transition_type
  | t0 :: rest =>
    let idx := max 0 (bisectRightInstant (t0 :: rest) unix_time - 1)
    ((t0 :: rest).getD idx t0).transition_type

/-- Embeds `Timezone._convert` (timezone.py lines 164–187). -/
def Timezone._convert (tz : Timezone) (dt : DateTime) : Except String DateTime :=
  match dt.tzinfo with
  | none =>
    Except.error "A datetime without a tzinfo cannot be converted. Use _normalize() instead."
  | some info =>
    let unix_time := Timezone._get_timestamp dt info
    Except.ok (tz._to_local_time unix_time (tz.convertType unix_time) none)

/-- Embeds the public `Timezone.convert` (timezone.py lines 63–76): dispatch
on the presence of `tzinfo`. -/
def Timezone.convert (tz : Timezone) (dt : DateTime) : Except String DateTime :=
  match dt.tzinfo with
  | none => tz._normalize dt
  | some _ => tz._convert dt

/-- Modelled from the spec: the external `Loader.load` collaborator (its
module is not under `src/`), spec §6: it yields `(transitions,
transition_types, default_transition_type)` or fails with `ZoneNotFound`,
modelled as `none`. -/
def LoaderFn : Type :=
  String → Option (List Transition × List TransitionType × TransitionType)

/-- Embeds `Timezone.load` (timezone.py lines 34–61) with the process-wide
cache `Timezone._cache` passed as explicit state (an association list):
return the cached zone when present, otherwise invoke the loader, construct
the zone, insert it and return it.  A loader failure surfaces as
`ZoneNotFound` and leaves the cache unchanged. -/
def Timezone.load (loader : LoaderFn) (cache : List (String × Timezone))
    (name : String) : Except String Timezone × List (String × Timezone) :=
  match cache.lookup name with
  | some zone => (Except.ok zone, cache)
  | none =>
    match loader name with
    | none => (Except.error "ZoneNotFound", cache)
    | some (transitions, transition_types, default_transition_type) =>
      let zone : Timezone :=
        { name := name
          transitions := transitions
          transition_types := transition_types
          default_transition_type := default_transition_type }
      (Except.ok zone, (name, zone) :: cache)

/-- Embeds the `_UTC` singleton's zone state (timezone.py line 259):
`Timezone('UTC', [], [], TransitionType(0, False, 'GMT'))`. -/
def UTCTimezone : Timezone :=
  { name := "UTC"
    transitions := []
    transition_types := []
    default_transition_type := { utc_offset := 0, is_dst := false, abbreviation := "GMT" } }

/-- Embeds the exported `UTC` constant (timezone.py lines 261, 268): the
`_UTC` instance's eagerly constructed `TimezoneInfo(self, 0, False,
'UTC')`. -/
def UTC : TimezoneInfo :=
  { zoneName := "UTC", offsetSeconds := 0, isDst := false, abbreviation := "UTC" }

/-! ### Table invariants (spec §3)

The invariants of a well-formed transition table, used as hypotheses of the
theorems that quantify over zones. -/

/-- Ordering between two entries of a well-formed table (spec §3: the table
is "sorted strictly ascending by `instant` (equivalently, non-decreasing by
`wallAfter`)", with the ambiguity windows of distinct transitions disjoint —
each transition's wall-clock window is resolved before the next transition's
window opens). -/
def transLt (a b : Transition) : Prop :=
  a.unix_time < b.unix_time ∧ a.time ≤ b.time ∧ a.time < b.pre_time ∧
    a.pre_time < b.time ∧ a.pre_time < b.pre_time

instance (a b : Transition) : Decidable (transLt a b) := by
  unfold transLt; infer_instance

/-- The table is ordered: every earlier entry relates to every later entry by
`transLt`. -/
def transOrdered (ts : List Transition) : Prop :=
  ts.Pairwise transLt

instance (ts : List Transition) : Decidable (transOrdered ts) := by
  unfold transOrdered; infer_instance

/-- Each entry's wall-clock boundaries are its instant shifted by the
post- and pre-transition offsets (spec §3: "`wallAfter`/`wallBefore` are the
wall-clock readings obtained by applying `typeAfter`/`typeBefore`'s offset
to `instant`"). -/
def wallConsistent (ts : List Transition) : Prop :=
  ∀ t ∈ ts, t.time = (t.unix_time : ℚ) + (t.transition_type.utc_offset : ℚ) ∧
    t.pre_time = (t.unix_time : ℚ) + (t.pre_transition_type.utc_offset : ℚ)

instance (ts : List Transition) : Decidable (wallConsistent ts) := by
  unfold wallConsistent; infer_instance

/-- Consecutive entries agree on the type in force between them: each
transition's pre-transition type is its predecessor's post-transition
type. -/
def typesChained (ts : List Transition) : Prop :=
  ts.Chain' (fun a b => b.pre_transition_type = a.transition_type)

instance (ts : List Transition) : Decidable (typesChained ts) := by
  unfold typesChained; infer_instance

/-! ### List helpers -/

theorem countP_split {α : Type} (p : α → Bool) (l1 l2 : List α)
    (h1 : ∀ a ∈ l1, p a = true) (h2 : ∀ a ∈ l2, ¬ p a = true) :
    (l1 ++ l2).countP p = l1.length := by
  rw [List.countP_append, List.countP_eq_length.mpr h1, List.countP_eq_zero.mpr h2]
  rw [Nat.add_zero]

theorem getD_append_length {α : Type} (l1 : List α) (x : α) (l2 : List α) (d : α) :
    (l1 ++ x :: l2).getD l1.length d = x := by
  induction l1 with
  | nil => rfl
  | cons a l ih => simpa using ih

theorem getLast_eq_right {α : Type} (l1 l2 : List α) (h2 : l2 ≠ []) (h : l1 ++ l2 ≠ []) :
    (l1 ++ l2).getLast h = l2.getLast h2 :=
  List.getLast_append' l1 l2 h2

theorem pairwise_mid_left {α : Type} {R : α → α → Prop} {A : List α} {x : α} {B : List α}
    (h : (A ++ x :: B).Pairwise R) : ∀ a ∈ A, R a x := by
  rw [List.pairwise_append] at h
  exact fun a ha => h.2.2 a ha x (List.mem_cons_self x B)

theorem pairwise_mid_right {α : Type} {R : α → α → Prop} {A : List α} {x : α} {B : List α}
    (h : (A ++ x :: B).Pairwise R) : ∀ b ∈ B, R x b := by
  rw [List.pairwise_append] at h
  exact fun b hb => (List.pairwise_cons.mp h.2.1).1 b hb

theorem chain'_middle {α : Type} {R : α → α → Prop} :
    ∀ (A : List α) {x y : α} {B : List α}, List.Chain' R (A ++ x :: y :: B) → R x y := by
  intro A
  induction A with
  | nil => intro x y B h; exact (List.chain'_cons.mp h).1
  | cons a A ih => intro x y B h; exact ih (by simpa using h.tail)

theorem last_sat_split {α : Type} (p : α → Bool) (l : List α) :
    (∀ a ∈ l, ¬ p a = true) ∨
      ∃ l1 x l2, l = l1 ++ x :: l2 ∧ p x = true ∧ ∀ b ∈ l2, ¬ p b = true := by
  induction l using List.reverseRecOn with
  | nil => left; simp
  | append_singleton l a ih =>
    by_cases hpa : p a = true
    · right; exact ⟨l, a, [], by simp, hpa, by simp⟩
    · rcases ih with h | ⟨l1, x, l2, hdec, hx, hl2⟩
      · left
        intro b hb
        rcases List.mem_append.mp hb with hb | hb
        · exact h b hb
        · simp only [List.mem_singleton] at hb; subst hb; exact hpa
      · right
        refine ⟨l1, x, l2 ++ [a], by rw [hdec]; simp, hx, ?_⟩
        intro b hb
        rcases List.mem_append.mp hb with hb | hb
        · exact hl2 b hb
        · simp only [List.mem_singleton] at hb; subst hb; exact hpa

theorem transLt_ne {a b : Transition} (h : transLt a b) : a ≠ b := by
  intro e; subst e; exact lt_irrefl _ h.1

/-! ### Branch lemmas for the transition selection of `_normalize` -/

theorem bisect_right_split (l1 l2 : List Transition) (dt : ℚ)
    (h1 : ∀ a ∈ l1, a.time ≤ dt) (h2 : ∀ a ∈ l2, ¬ a.time ≤ dt) :
    bisect_right (((l1 ++ l2).map Transition.time)) dt = l1.length := by
  unfold bisect_right
  rw [List.countP_map]
  exact countP_split _ l1 l2 (fun a ha => by simpa using h1 a ha)
    (fun a ha => by simpa using h2 a ha)

theorem normTr_before_begin (ts : List Transition) (tbegin tend : Transition) (dt : ℚ)
    (h : dt < tbegin.time) : normTr ts tbegin tend dt = tbegin := by
  unfold normTr; rw [if_pos h]

theorem normTr_after_end (ts : List Transition) (tbegin tend : Transition) (dt : ℚ)
    (hb : ¬ dt < tbegin.time) (he : ¬ dt < tend.time) :
    normTr ts tbegin tend dt = tend := by
  unfold normTr; rw [if_neg hb, if_pos he]

theorem normTr_bisect (A : List Transition) (pr t : Transition) (B : List Transition)
    (tbegin tend : Transition) (dt : ℚ)
    (hb : ¬ dt < tbegin.time) (he : dt < tend.time)
    (h1 : ∀ a ∈ A ++ [pr], a.time ≤ dt) (h2 : ∀ a ∈ t :: B, ¬ a.time ≤ dt) :
    normTr ((A ++ [pr]) ++ t :: B) tbegin tend dt =
      (if dt ≤ pr.pre_time then pr else t) := by
  unfold normTr
  rw [if_neg hb, if_neg (not_not.mpr he)]
  have hidx : bisect_right ((((A ++ [pr]) ++ t :: B)).map Transition.time) dt
      = A.length + 1 := by
    rw [bisect_right_split (A ++ [pr]) (t :: B) dt h1 h2]
    simp
  simp only [hidx, Nat.zero_max]
  have hget1 : ((A ++ [pr]) ++ t :: B).getD (A.length + 1) tbegin = t := by
    have : (A ++ [pr]).length = A.length + 1 := by simp
    rw [← this, getD_append_length]
  have hget0 : ((A ++ [pr]) ++ t :: B).getD (A.length + 1 - 1) tbegin = pr := by
    have hassoc : (A ++ [pr]) ++ t :: B = A ++ pr :: t :: B := by simp
    rw [hassoc]
    simpa using getD_append_length A pr (t :: B) tbegin
  rw [hget1, hget0, if_pos (Nat.succ_pos _)]

theorem normalizeResolve_cons (tz : Timezone) (t0 : Transition) (rest : List Transition)
    (h : tz.transitions = t0 :: rest) (dt : ℚ) :
    tz.normalizeResolve dt =
      normOutcome tz.default_transition_type t0
        ((t0 :: rest).getLast (List.cons_ne_nil t0 rest))
        (normTr (t0 :: rest) t0 ((t0 :: rest).getLast (List.cons_ne_nil t0 rest)) dt) dt := by
  unfold Timezone.normalizeResolve
  rw [h]

/-! ### Concrete zones used by counterexamples and witnesses -/

/-- A transition type that only carries a UTC offset. -/
def ttOff (o : Int) : TransitionType := ⟨o, false, ""⟩

/-- First transition of `zoneW`: at instant 0, offset 0 → 3600 (a forward
jump; wall gap `[0, 3600)`). -/
def w0 : Transition := ⟨0, 3600, 0, ttOff 3600, ttOff 0⟩

/-- Second transition of `zoneW`: at instant 10000, offset 3600 → 0 (a
backward jump; wall fold `[10000, 13600]`). -/
def w1 : Transition := ⟨10000, 10000, 13600, ttOff 0, ttOff 3600⟩

/-- Third transition of `zoneW`: at instant 100000, offset 0 → 3600 (a
forward jump; wall gap `[100000, 103600)`). -/
def w2 : Transition := ⟨100000, 103600, 100000, ttOff 3600, ttOff 0⟩

/-- A three-transition zone satisfying every table invariant, with
non-negative instants. -/
def zoneW : Timezone := ⟨"W", [w0, w1, w2], [], ttOff 0⟩

/-- First transition of `zoneY`: at instant 0, offset −3600 → 0. -/
def y0 : Transition := ⟨0, 0, -3600, ttOff 0, ttOff (-3600)⟩

/-- Second (and last) transition of `zoneY`: at instant 10000, offset
0 → 3600 (a forward jump; wall gap `[10000, 13600)`). -/
def y1 : Transition := ⟨10000, 13600, 10000, ttOff 3600, ttOff 0⟩

/-- A two-transition zone satisfying every table invariant whose last
transition creates a gap. -/
def zoneY : Timezone := ⟨"Y", [y0, y1], [], ttOff (-3600)⟩

/-- First transition of `zoneC1`: at instant 0, offset 3600 → 0 (a backward
jump; wall fold `[0, 3600]`). -/
def tA : Transition := ⟨0, 0, 3600, ttOff 0, ttOff 3600⟩

/-- Second transition of `zoneC1`: at instant 10000, offset 0 → 3600. -/
def tB : Transition := ⟨10000, 13600, 10000, ttOff 3600, ttOff 0⟩

/-- A two-transition zone whose first transition creates a fold and whose
default (pre-history) type has a distinct offset 7200. -/
def zoneC1 : Timezone := ⟨"C1", [tA, tB], [], ttOff 7200⟩

/-! ### C1 -/

/-- C1 counterexample: in `zoneC1` — a well-formed table whose *first*
transition `tA` creates a fold (its wall clock jumped backward, window
`[0, 3600]`) — the naive reading 1800 lies in the fold window, yet
`_normalize` does not return the claimed post-transition occurrence
`tA.instant + (naive − tA.wallAfter) = 1800`: it takes the pre-history
branch and produces instant `1800 − 7200 = −5400` with the default type's
offset 7200 as an explicit override. -/
theorem foldFirstTransitionDiverges :
    transOrdered zoneC1.transitions ∧ wallConsistent zoneC1.transitions ∧
      typesChained zoneC1.transitions ∧
      zoneC1.transitions.head? = some tA ∧
      tA.time ≤ (1800 : ℚ) ∧ (1800 : ℚ) ≤ tA.pre_time ∧ tA.time < tA.pre_time ∧
      zoneC1.normalizeResolve 1800 = (-5400, tA.transition_type, some 7200) ∧
      (-5400 : ℚ) ≠ (tA.unix_time : ℚ) + (1800 - tA.time) := by
  refine ⟨?_, ?_, ?_, ?_, ?_, ?_, ?_, ?_, ?_⟩
  · norm_num [transOrdered, transLt, zoneC1, tA, tB, ttOff, List.pairwise_cons]
  · norm_num [wallConsistent, zoneC1, tA, tB, ttOff]
  · norm_num [typesChained, zoneC1, tA, tB, ttOff, List.chain'_cons]
  · norm_num [zoneC1]
  · norm_num [tA]
  · norm_num [tA]
  · norm_num [tA]
  · norm_num [Timezone.normalizeResolve, normOutcome, normTr, bisect_right,
      zoneC1, tA, tB, ttOff, List.countP, List.countP.go]
  · norm_num [tA]

/-- C1 (amended): for every ordered zone and every naive reading in the fold
window of a transition `t` that is *not the first* entry of the table
(`t.wallAfter ≤ naive ≤ t.wallBefore`), `_normalize` resolves to the later,
post-transition occurrence: the instant is `t.instant + (naive − t.wallAfter)`,
the resolved type is `t`'s post-transition type with no offset override, and
the pre-transition occurrence is never selected.  (At the first transition
the source instead takes its pre-history branch, as the counterexample
shows.) -/
theorem foldResolvesPostTransition
    (tz : Timezone) (A : List Transition) (t : Transition) (B : List Transition) (naive : ℚ)
    (hts : tz.transitions = A ++ t :: B) (hA : A ≠ [])
    (hord : transOrdered tz.transitions)
    (hlo : t.time ≤ naive) (hhi : naive ≤ t.pre_time) :
    tz.normalizeResolve naive =
        ((t.unix_time : ℚ) + (naive - t.time), t.transition_type, none) ∧
      tz._normalize ⟨naive, none⟩ =
        Except.ok (tz._to_local_time ((t.unix_time : ℚ) + (naive - t.time))
          t.transition_type none) := by
  have hmain : tz.normalizeResolve naive =
      ((t.unix_time : ℚ) + (naive - t.time), t.transition_type, none) := by
    rcases A with _ | ⟨a0, A'⟩
    · exact absurd rfl hA
    have hts' : tz.transitions = a0 :: (A' ++ t :: B) := by simpa using hts
    rw [normalizeResolve_cons tz a0 (A' ++ t :: B) hts' naive]
    rw [hts] at hord
    unfold transOrdered at hord
    have hA0t : transLt a0 t :=
      pairwise_mid_left hord a0 (List.mem_cons_self a0 A')
    have hAt : ∀ a ∈ (a0 :: A'), transLt a t := pairwise_mid_left hord
    have htB : ∀ b ∈ B, transLt t b := pairwise_mid_right hord
    have hb : ¬ naive < a0.time := not_lt.mpr (le_trans hA0t.2.1 hlo)
    rcases B with _ | ⟨b0, B'⟩
    · -- `t` is also the last entry: the shortcut against `end` applies.
      have hlast : (A' ++ t :: ([] : List Transition)).getLast (by simp) = t := by
        have e2 := getLast_eq_right A' [t] (List.cons_ne_nil t [])
          (by simp)
        exact e2
      have hlast' : (a0 :: (A' ++ t :: ([] : List Transition))).getLast
          (List.cons_ne_nil _ _) = t :=
        (List.getLast_cons (by simp)).trans hlast
      rw [hlast']
      rw [normTr_after_end _ _ _ _ hb (not_lt.mpr hlo)]
      unfold normOutcome
      rw [if_neg (Ne.symm (transLt_ne hA0t)), if_pos rfl, if_neg (not_lt.mpr hhi)]
    · -- `t` has a successor: the binary search plus look-back select `t`.
      have e1 : (a0 :: (A' ++ t :: b0 :: B')).getLast (List.cons_ne_nil _ _)
          = (A' ++ t :: b0 :: B').getLast (by simp) := List.getLast_cons _
      have e2 : (A' ++ t :: b0 :: B').getLast (by simp)
          = (t :: b0 :: B').getLast (List.cons_ne_nil _ _) :=
        getLast_eq_right A' (t :: b0 :: B') (List.cons_ne_nil _ _) (by simp)
      have e3 : (t :: b0 :: B').getLast (List.cons_ne_nil _ _)
          = (b0 :: B').getLast (List.cons_ne_nil _ _) := List.getLast_cons _
      have hlast : (a0 :: (A' ++ t :: b0 :: B')).getLast (List.cons_ne_nil _ _)
          = (b0 :: B').getLast (List.cons_ne_nil _ _) := (e1.trans e2).trans e3
      have hlastMem : (b0 :: B').getLast (List.cons_ne_nil b0 B') ∈ b0 :: B' :=
        List.getLast_mem _
      have hlastLt : transLt t ((b0 :: B').getLast (List.cons_ne_nil b0 B')) :=
        htB _ hlastMem
      have he : naive < ((b0 :: B').getLast (List.cons_ne_nil b0 B')).time :=
        lt_of_le_of_lt hhi hlastLt.2.2.2.1
      have hshape : a0 :: (A' ++ t :: b0 :: B') = ((a0 :: A') ++ [t]) ++ b0 :: B' := by
        simp
      have hnt : normTr (a0 :: (A' ++ t :: b0 :: B')) a0
          ((b0 :: B').getLast (List.cons_ne_nil b0 B')) naive = t := by
        rw [hshape, normTr_bisect (a0 :: A') t b0 B' _ _ naive hb he
          (by
            intro a ha
            rcases List.mem_append.mp ha with ha | ha
            · exact le_trans (hAt a ha).2.1 hlo
            · simp only [List.mem_singleton] at ha; subst ha; exact hlo)
          (by
            intro a ha
            have : transLt t a := htB a ha
            exact not_le.mpr (lt_of_le_of_lt hhi this.2.2.2.1))]
        rw [if_pos hhi]
      rw [hlast, hnt]
      unfold normOutcome
      rw [if_neg (Ne.symm (transLt_ne hA0t)),
        if_neg (transLt_ne hlastLt),
        if_neg (by
          rintro ⟨-, h2⟩
          exact absurd hlo (not_le.mpr h2)),
        if_pos ⟨hlo, hhi⟩]
  refine ⟨hmain, ?_⟩
  unfold Timezone._normalize
  simp only [Option.isSome_none, Bool.false_eq_true, if_false, hmain]

theorem getLast_append_cons_nil {α : Type} (A : List α) (x : α) (h) :
    (A ++ x :: ([] : List α)).getLast h = x := by
  have e := getLast_eq_right A [x] (List.cons_ne_nil x []) h
  exact e

theorem getLast_append_cons {α : Type} (A : List α) (x : α) (B : List α) (hB : B ≠ []) (h) :
    (A ++ x :: B).getLast h = B.getLast hB := by
  have e := getLast_eq_right A (x :: B) (List.cons_ne_nil x B) h
  rw [e, List.getLast_cons hB]


/-- C2 (amended): for every ordered zone and every naive reading in the gap
window of a transition `t` (`t.wallBefore ≤ naive < t.wallAfter`, the clock
jumped forward), provided `naive` is strictly above `t.wallBefore` when `t`
is the first entry, and `t` is not the last entry of a multi-transition
table, `_normalize` does not fail: it resolves to instant
`t.instant − (t.wallBefore − naive)` with `t`'s post-transition type and no
offset override.  (At the last transition of a multi-transition table, and
at `naive = wallBefore` of the first, the source takes other branches, as
the counterexample shows.) -/
theorem gapResolvesPostTransition
    (tz : Timezone) (A : List Transition) (t : Transition) (B : List Transition) (naive : ℚ)
    (hts : tz.transitions = A ++ t :: B)
    (hord : transOrdered tz.transitions)
    (hlo : t.pre_time ≤ naive) (hhi : naive < t.time)
    (hfirst : A = [] → t.pre_time < naive)
    (hlast : A ≠ [] → B ≠ []) :
    tz.normalizeResolve naive =
        ((t.unix_time : ℚ) - (t.pre_time - naive), t.transition_type, none) ∧
      tz._normalize ⟨naive, none⟩ =
        Except.ok (tz._to_local_time ((t.unix_time : ℚ) - (t.pre_time - naive))
          t.transition_type none) := by
  have hmain : tz.normalizeResolve naive =
      ((t.unix_time : ℚ) - (t.pre_time - naive), t.transition_type, none) := by
    rcases A with _ | ⟨a0, A'⟩
    · -- `t` is the first entry of the table: the `dt < begin.time` shortcut.
      rw [normalizeResolve_cons tz t B (by simpa using hts) naive]
      rw [normTr_before_begin _ _ _ _ hhi]
      unfold normOutcome
      rw [if_pos rfl, if_neg (not_not_intro (hfirst rfl))]
    · have hB : B ≠ [] := hlast (List.cons_ne_nil a0 A')
      rcases B with _ | ⟨b0, B'⟩
      · exact absurd rfl hB
      have hts' : tz.transitions = a0 :: (A' ++ t :: b0 :: B') := by simpa using hts
      rw [normalizeResolve_cons tz a0 (A' ++ t :: b0 :: B') hts' naive]
      rw [hts] at hord
      unfold transOrdered at hord
      have hAt : ∀ a ∈ (a0 :: A'), transLt a t := pairwise_mid_left hord
      have htB : ∀ b ∈ b0 :: B', transLt t b := pairwise_mid_right hord
      have hb : ¬ naive < a0.time :=
        not_lt.mpr (le_trans (le_of_lt (hAt a0 (List.mem_cons_self a0 A')).2.2.1) hlo)
      have hlast1 : (a0 :: (A' ++ t :: b0 :: B')).getLast (List.cons_ne_nil _ _)
          = (A' ++ t :: b0 :: B').getLast (by simp) := List.getLast_cons _
      have hlast2 : (A' ++ t :: b0 :: B').getLast (by simp)
          = (b0 :: B').getLast (List.cons_ne_nil b0 B') :=
        getLast_append_cons A' t (b0 :: B') (List.cons_ne_nil b0 B') _
      have hlastT : (a0 :: (A' ++ t :: b0 :: B')).getLast (List.cons_ne_nil _ _)
          = (b0 :: B').getLast (List.cons_ne_nil b0 B') := hlast1.trans hlast2
      have hlastMem : (b0 :: B').getLast (List.cons_ne_nil b0 B') ∈ b0 :: B' :=
        List.getLast_mem _
      have hlastLt : transLt t ((b0 :: B').getLast (List.cons_ne_nil b0 B')) :=
        htB _ hlastMem
      have he : naive < ((b0 :: B').getLast (List.cons_ne_nil b0 B')).time :=
        lt_of_lt_of_le hhi hlastLt.2.1
      -- decompose `a0 :: A'` from the right for the binary-search lemma
      rcases List.eq_nil_or_concat (a0 :: A') with habs | ⟨A'', aL, hAcc⟩
      · exact absurd habs (List.cons_ne_nil a0 A')
      have hALmem : aL ∈ a0 :: A' := by rw [hAcc]; simp
      have hALt : transLt aL t := hAt aL hALmem
      have hshape : a0 :: (A' ++ t :: b0 :: B') = (A'' ++ [aL]) ++ t :: b0 :: B' := by
        have : a0 :: (A' ++ t :: b0 :: B') = (a0 :: A') ++ t :: b0 :: B' := by simp
        rw [this, hAcc]
        simp
      have hnt : normTr (a0 :: (A' ++ t :: b0 :: B')) a0
          ((b0 :: B').getLast (List.cons_ne_nil b0 B')) naive = t := by
        rw [hshape, normTr_bisect A'' aL t (b0 :: B') _ _ naive hb he
          (by
            intro a ha
            have ha' : a ∈ a0 :: A' := by rw [hAcc]; simpa using ha
            exact le_trans (le_of_lt (hAt a ha').2.2.1) hlo)
          (by
            intro a ha
            rcases List.mem_cons.mp ha with ha | ha
            · subst ha; exact not_le.mpr hhi
            · exact not_le.mpr (lt_of_lt_of_le hhi (htB a ha).2.1))]
        rw [if_neg (not_le.mpr (lt_of_lt_of_le hALt.2.2.2.2 hlo))]
      rw [hlastT, hnt]
      unfold normOutcome
      rw [if_neg (Ne.symm (transLt_ne (hAt a0 (List.mem_cons_self a0 A')))),
        if_neg (transLt_ne hlastLt),
        if_pos ⟨hlo, hhi⟩]
  refine ⟨hmain, ?_⟩
  unfold Timezone._normalize
  simp only [Option.isSome_none, Bool.false_eq_true, if_false, hmain]

/-- Shared branch lemma: in the interior case — `naive` above both wall
boundaries of `prev` and below both wall boundaries of the *found* transition
`t`, with `t` not the last entry — `_normalize` resolves via the source's
in-between branch: instant `t.instant + diff` where `diff = naive −
t.wallBefore` gets a one-second downward correction exactly when it lies in
`(−1, 0)` and `t.instant < 0`, and the resolved type is `t`'s pre-transition
type. -/
theorem normalizeResolve_interior
    (tz : Timezone) (A : List Transition) (prev t : Transition) (B : List Transition)
    (naive : ℚ)
    (hts : tz.transitions = A ++ prev :: t :: B) (hB : B ≠ [])
    (hord : transOrdered tz.transitions)
    (hp1 : prev.time ≤ naive) (hp2 : prev.pre_time < naive)
    (hq1 : naive < t.time) (hq2 : naive < t.pre_time) :
    tz.normalizeResolve naive =
      ((t.unix_time : ℚ) +
        (if ((-1 : ℚ) < naive - t.pre_time ∧ naive - t.pre_time < 0) ∧ t.unix_time < 0
          then naive - t.pre_time - 1 else naive - t.pre_time),
        t.pre_transition_type, none) := by
  rcases B with _ | ⟨b0, B'⟩
  · exact absurd rfl hB
  rw [hts] at hord
  unfold transOrdered at hord
  rcases A with _ | ⟨a0, A'⟩
  · -- `prev` is the first entry.
    rw [normalizeResolve_cons tz prev (t :: b0 :: B') (by simpa using hts) naive]
    have hprevAll : ∀ b ∈ t :: b0 :: B', transLt prev b :=
      (List.pairwise_cons.mp (by simpa using hord)).1
    have htB : ∀ b ∈ b0 :: B', transLt t b :=
      (List.pairwise_cons.mp (List.pairwise_cons.mp (by simpa using hord)).2).1
    have hprevT : transLt prev t := hprevAll t (List.mem_cons_self t _)
    have hb : ¬ naive < prev.time := not_lt.mpr hp1
    have hlast1 : (prev :: t :: b0 :: B').getLast (List.cons_ne_nil _ _)
        = (t :: b0 :: B').getLast (List.cons_ne_nil _ _) := List.getLast_cons _
    have hlast2 : (t :: b0 :: B').getLast (List.cons_ne_nil _ _)
        = (b0 :: B').getLast (List.cons_ne_nil b0 B') := List.getLast_cons _
    have hlastT := hlast1.trans hlast2
    have hlastMem : (b0 :: B').getLast (List.cons_ne_nil b0 B') ∈ b0 :: B' :=
      List.getLast_mem _
    have hlastLt : transLt t ((b0 :: B').getLast (List.cons_ne_nil b0 B')) :=
      htB _ hlastMem
    have he : naive < ((b0 :: B').getLast (List.cons_ne_nil b0 B')).time :=
      lt_of_lt_of_le hq1 hlastLt.2.1
    have hshape : prev :: t :: b0 :: B' = (([] : List Transition) ++ [prev]) ++ t :: b0 :: B' := by
      simp
    have hnt : normTr (prev :: t :: b0 :: B') prev
        ((b0 :: B').getLast (List.cons_ne_nil b0 B')) naive = t := by
      rw [hshape, normTr_bisect [] prev t (b0 :: B') _ _ naive hb he
        (by
          intro a ha
          simp only [List.nil_append, List.mem_singleton] at ha
          subst ha; exact hp1)
        (by
          intro a ha
          rcases List.mem_cons.mp ha with ha | ha
          · subst ha; exact not_le.mpr hq1
          · exact not_le.mpr (lt_of_lt_of_le hq1 (htB a ha).2.1))]
      rw [if_neg (not_le.mpr hp2)]
    rw [hlastT, hnt]
    unfold normOutcome
    rw [if_neg (Ne.symm (transLt_ne hprevT)),
      if_neg (transLt_ne hlastLt),
      if_neg (by rintro ⟨c1, -⟩; exact absurd hq2 (not_lt.mpr c1)),
      if_neg (by rintro ⟨c1, -⟩; exact absurd hq1 (not_lt.mpr c1))]
  · -- `prev` has predecessors.
    have hts' : tz.transitions = a0 :: (A' ++ prev :: t :: b0 :: B') := by simpa using hts
    rw [normalizeResolve_cons tz a0 (A' ++ prev :: t :: b0 :: B') hts' naive]
    have hAprev : ∀ a ∈ a0 :: A', transLt a prev := pairwise_mid_left hord
    have hord2 : (((a0 :: A') ++ [prev]) ++ t :: b0 :: B').Pairwise transLt := by
      simpa using hord
    have hAt : ∀ a ∈ (a0 :: A') ++ [prev], transLt a t := pairwise_mid_left hord2
    have htB : ∀ b ∈ b0 :: B', transLt t b := pairwise_mid_right hord2
    have hb : ¬ naive < a0.time :=
      not_lt.mpr (le_trans (hAprev a0 (List.mem_cons_self a0 A')).2.1
        (le_trans hp1 (le_refl naive)))
    have hlast1 : (a0 :: (A' ++ prev :: t :: b0 :: B')).getLast (List.cons_ne_nil _ _)
        = (A' ++ prev :: t :: b0 :: B').getLast (by simp) := List.getLast_cons _
    have hlast2 : (A' ++ prev :: t :: b0 :: B').getLast (by simp)
        = (prev :: t :: b0 :: B').getLast (List.cons_ne_nil _ _) :=
      getLast_eq_right A' _ (List.cons_ne_nil _ _) _
    have hlast3 : (prev :: t :: b0 :: B').getLast (List.cons_ne_nil _ _)
        = (t :: b0 :: B').getLast (List.cons_ne_nil _ _) := List.getLast_cons _
    have hlast4 : (t :: b0 :: B').getLast (List.cons_ne_nil _ _)
        = (b0 :: B').getLast (List.cons_ne_nil b0 B') := List.getLast_cons _
    have hlastT := ((hlast1.trans hlast2).trans hlast3).trans hlast4
    have hlastMem : (b0 :: B').getLast (List.cons_ne_nil b0 B') ∈ b0 :: B' :=
      List.getLast_mem _
    have hlastLt : transLt t ((b0 :: B').getLast (List.cons_ne_nil b0 B')) :=
      htB _ hlastMem
    have he : naive < ((b0 :: B').getLast (List.cons_ne_nil b0 B')).time :=
      lt_of_lt_of_le hq1 hlastLt.2.1
    have hshape : a0 :: (A' ++ prev :: t :: b0 :: B')
        = ((a0 :: A') ++ [prev]) ++ t :: b0 :: B' := by simp
    have hnt : normTr (a0 :: (A' ++ prev :: t :: b0 :: B')) a0
        ((b0 :: B').getLast (List.cons_ne_nil b0 B')) naive = t := by
      rw [hshape, normTr_bisect (a0 :: A') prev t (b0 :: B') _ _ naive hb he
        (by
          intro a ha
          rcases List.mem_append.mp ha with ha | ha
          · exact le_trans (hAprev a ha).2.1 hp1
          · simp only [List.mem_singleton] at ha; subst ha; exact hp1)
        (by
          intro a ha
          rcases List.mem_cons.mp ha with ha | ha
          · subst ha; exact not_le.mpr hq1
          · exact not_le.mpr (lt_of_lt_of_le hq1 (htB a ha).2.1))]
      rw [if_neg (not_le.mpr hp2)]
    rw [hlastT, hnt]
    unfold normOutcome
    rw [if_neg (Ne.symm (transLt_ne (hAt a0 (by simp)))),
      if_neg (transLt_ne hlastLt),
      if_neg (by rintro ⟨c1, -⟩; exact absurd hq2 (not_lt.mpr c1)),
      if_neg (by rintro ⟨c1, -⟩; exact absurd hq1 (not_lt.mpr c1))]

/-- C2 counterexample: in `zoneY` — a well-formed table whose *last*
transition `y1` creates a gap (wall window `[10000, 13600)`) — the naive
reading 11800 lies in the gap, yet `_normalize` does not produce the claimed
`y1.instant − (y1.wallBefore − naive) = 11800`: the repeated/after-last
branch of the end shortcut yields `y1.instant + (naive − y1.wallAfter) =
8200` (the post-transition offset applied *below* the transition
instant). -/
theorem gapLastTransitionDiverges :
    transOrdered zoneY.transitions ∧ wallConsistent zoneY.transitions ∧
      typesChained zoneY.transitions ∧
      zoneY.transitions.getLast? = some y1 ∧
      y1.pre_time ≤ (11800 : ℚ) ∧ (11800 : ℚ) < y1.time ∧ y1.pre_time < y1.time ∧
      zoneY.normalizeResolve 11800 = (8200, y1.transition_type, none) ∧
      (8200 : ℚ) ≠ (y1.unix_time : ℚ) - (y1.pre_time - 11800) := by
  refine ⟨?_, ?_, ?_, rfl, ?_, ?_, ?_, ?_, ?_⟩
  · norm_num [transOrdered, transLt, zoneY, y0, y1, ttOff, List.pairwise_cons]
  · norm_num [wallConsistent, zoneY, y0, y1, ttOff]
  · norm_num [typesChained, zoneY, y0, y1, ttOff, List.chain'_cons]
  · norm_num [y1]
  · norm_num [y1]
  · norm_num [y1]
  · norm_num [Timezone.normalizeResolve, normOutcome, normTr, bisect_right,
      zoneY, y0, y1, ttOff, List.countP, List.countP.go]
  · norm_num [y1]

/-- Witness for C2: the gap `[0, 3600)` of `zoneW`'s first transition at
naive 1800 resolves to instant 1800 with the post-transition type. -/
theorem gapResolvesPostTransition_witness :
    zoneW.normalizeResolve 1800 =
        ((w0.unix_time : ℚ) - (w0.pre_time - 1800), w0.transition_type, none) ∧
      zoneW._normalize ⟨1800, none⟩ =
        Except.ok (zoneW._to_local_time ((w0.unix_time : ℚ) - (w0.pre_time - 1800))
          w0.transition_type none) :=
  gapResolvesPostTransition zoneW [] w0 [w1, w2] 1800 rfl
    (by norm_num [transOrdered, transLt, zoneW, w0, w1, w2, ttOff, List.pairwise_cons])
    (by norm_num [w0]) (by norm_num [w0])
    (fun _ => by norm_num [w0])
    (fun h => absurd rfl h)

/-- Witness for C1: the fold `[10000, 13600]` of `zoneW`'s middle transition
at naive 12000 resolves to instant 12000 with the post-transition type. -/
theorem foldResolvesPostTransition_witness :
    zoneW.normalizeResolve 12000 =
        ((w1.unix_time : ℚ) + (12000 - w1.time), w1.transition_type, none) ∧
      zoneW._normalize ⟨12000, none⟩ =
        Except.ok (zoneW._to_local_time ((w1.unix_time : ℚ) + (12000 - w1.time))
          w1.transition_type none) :=
  foldResolvesPostTransition zoneW [w0] w1 [w2] 12000 rfl (by simp)
    (by norm_num [transOrdered, transLt, zoneW, w0, w1, w2, ttOff, List.pairwise_cons])
    (by norm_num [w1]) (by norm_num [w1])

/-- C4 counterexample: in `zoneY`, the naive reading 5000 is strictly
between the two transitions and inside no gap or fold window, yet
`_normalize` does not produce the claimed `prev.instant + (naive −
prev.wallAfter) = 5000` with `prev`'s post type (offset 0): because the
found transition is the *last* entry, the end shortcut yields
`y1.instant + (naive − y1.wallAfter) = 1400` tagged with `y1`'s
post-transition type (offset 3600). -/
theorem interiorNearLastDiverges :
    transOrdered zoneY.transitions ∧ wallConsistent zoneY.transitions ∧
      typesChained zoneY.transitions ∧
      zoneY.transitions = [y0, y1] ∧
      y0.time ≤ (5000 : ℚ) ∧ y0.pre_time < (5000 : ℚ) ∧
      (5000 : ℚ) < y1.time ∧ (5000 : ℚ) < y1.pre_time ∧
      zoneY.normalizeResolve 5000 = (1400, y1.transition_type, none) ∧
      (1400 : ℚ) ≠ (y0.unix_time : ℚ) + (5000 - y0.time) ∧
      y1.transition_type ≠ y0.transition_type := by
  refine ⟨?_, ?_, ?_, rfl, ?_, ?_, ?_, ?_, ?_, ?_, ?_⟩
  · norm_num [transOrdered, transLt, zoneY, y0, y1, ttOff, List.pairwise_cons]
  · norm_num [wallConsistent, zoneY, y0, y1, ttOff]
  · norm_num [typesChained, zoneY, y0, y1, ttOff, List.chain'_cons]
  · norm_num [y0]
  · norm_num [y0]
  · norm_num [y1]
  · norm_num [y1]
  · norm_num [Timezone.normalizeResolve, normOutcome, normTr, bisect_right,
      zoneY, y0, y1, ttOff, List.countP, List.countP.go]
  · norm_num [y0]
  · norm_num [y0, y1, ttOff]

/-- C4 (amended): in the interior case with the found (next) transition `t`
not the last entry, the resolved instant is `t.instant + d` for
`d = naive − t.wallBefore` — equal to `prev.instant + (naive −
prev.wallAfter)` for chained consistent tables — with the one-second
downward correction applied exactly when `d ∈ (−1, 0)` and `t.instant < 0`
(the source tests the *found* transition's instant and wallBefore, not
`prev`'s), and the resolved type is `t`'s pre-transition type (equal to
`prev`'s post type in a chained table). -/
theorem interiorResolvesPreviousPeriod
    (tz : Timezone) (A : List Transition) (prev t : Transition) (B : List Transition)
    (naive : ℚ)
    (hts : tz.transitions = A ++ prev :: t :: B) (hB : B ≠ [])
    (hord : transOrdered tz.transitions)
    (hp1 : prev.time ≤ naive) (hp2 : prev.pre_time < naive)
    (hq1 : naive < t.time) (hq2 : naive < t.pre_time) :
    tz.normalizeResolve naive =
        ((t.unix_time : ℚ) +
          (if ((-1 : ℚ) < naive - t.pre_time ∧ naive - t.pre_time < 0) ∧ t.unix_time < 0
            then naive - t.pre_time - 1 else naive - t.pre_time),
          t.pre_transition_type, none) ∧
      tz._normalize ⟨naive, none⟩ =
        Except.ok (tz._to_local_time
          ((t.unix_time : ℚ) +
            (if ((-1 : ℚ) < naive - t.pre_time ∧ naive - t.pre_time < 0) ∧ t.unix_time < 0
              then naive - t.pre_time - 1 else naive - t.pre_time))
          t.pre_transition_type none) := by
  have hmain := normalizeResolve_interior tz A prev t B naive hts hB hord hp1 hp2 hq1 hq2
  refine ⟨hmain, ?_⟩
  unfold Timezone._normalize
  simp only [Option.isSome_none, Bool.false_eq_true, if_false, hmain]

/-- Witness for C4: the interior reading 5000 of `zoneW` resolves to
instant 1400 with the pre-transition type of the found transition. -/
theorem interiorResolvesPreviousPeriod_witness :
    zoneW.normalizeResolve 5000 = (1400, ttOff 3600, none) := by
  have h := (interiorResolvesPreviousPeriod zoneW [] w0 w1 [w2] 5000 rfl (by simp)
    (by norm_num [transOrdered, transLt, zoneW, w0, w1, w2, ttOff, List.pairwise_cons])
    (by norm_num [w0]) (by norm_num [w0]) (by norm_num [w1]) (by norm_num [w1])).1
  rw [h]
  norm_num [w1, ttOff]

/-! ### Branch lemmas for the transition-type selection of `_convert` -/

theorem convertType_cons (tz : Timezone) (t0 : Transition) (rest : List Transition)
    (h : tz.transitions = t0 :: rest) (x : ℚ) :
    tz.convertType x =
      ((t0 :: rest).getD (max 0 (bisectRightInstant (t0 :: rest) x - 1)) t0).transition_type := by
  unfold Timezone.convertType
  rw [h]

theorem bisectRightInstant_split (l1 l2 : List Transition) (x : ℚ)
    (h1 : ∀ a ∈ l1, (a.unix_time : ℚ) ≤ x) (h2 : ∀ a ∈ l2, ¬ (a.unix_time : ℚ) ≤ x) :
    bisectRightInstant (l1 ++ l2) x = l1.length := by
  unfold bisectRightInstant
  exact countP_split _ l1 l2 (fun a ha => by simpa using h1 a ha)
    (fun a ha => by simpa using h2 a ha)

/-- When the table splits as `A ++ tr :: B` with every entry up to `tr` at an
instant ≤ `x` and every entry of `B` later than `x`, `_convert` selects `tr`'s
post-transition type. -/
theorem convertType_mid (tz : Timezone) (A : List Transition) (tr : Transition)
    (B : List Transition) (x : ℚ)
    (hts : tz.transitions = A ++ tr :: B)
    (hA : ∀ a ∈ A, (a.unix_time : ℚ) ≤ x) (htr : (tr.unix_time : ℚ) ≤ x)
    (hB : ∀ b ∈ B, ¬ (b.unix_time : ℚ) ≤ x) :
    tz.convertType x = tr.transition_type := by
  rcases A with _ | ⟨a0, A'⟩
  · rw [convertType_cons tz tr B (by simpa using hts) x]
    have hc : bisectRightInstant (tr :: B) x = 1 := by
      have h := bisectRightInstant_split [tr] B x
        (by intro a ha; simp only [List.mem_singleton] at ha; subst ha; exact htr) hB
      simpa using h
    rw [hc]
    simp
  · rw [convertType_cons tz a0 (A' ++ tr :: B) (by simpa using hts) x]
    have hshape : a0 :: (A' ++ tr :: B) = ((a0 :: A') ++ [tr]) ++ B := by simp
    have hc : bisectRightInstant (a0 :: (A' ++ tr :: B)) x = A'.length + 2 := by
      rw [hshape, bisectRightInstant_split ((a0 :: A') ++ [tr]) B x
        (by
          intro a ha
          rcases List.mem_append.mp ha with ha | ha
          · exact hA a ha
          · simp only [List.mem_singleton] at ha; subst ha; exact htr) hB]
      simp
    rw [hc]
    have hidx : max 0 (A'.length + 2 - 1) = (a0 :: A').length := by simp
    have hshape2 : a0 :: (A' ++ tr :: B) = (a0 :: A') ++ tr :: B := by simp
    rw [hidx, hshape2, getD_append_length]

/-- When `x` precedes every transition instant of a non-empty table,
`_convert` selects the *first* transition's post-transition type. -/
theorem convertType_before (tz : Timezone) (t0 : Transition) (rest : List Transition) (x : ℚ)
    (hts : tz.transitions = t0 :: rest)
    (h : ∀ a ∈ t0 :: rest, ¬ (a.unix_time : ℚ) ≤ x) :
    tz.convertType x = t0.transition_type := by
  rw [convertType_cons tz t0 rest hts x]
  have hc : bisectRightInstant (t0 :: rest) x = 0 := by
    unfold bisectRightInstant
    exact List.countP_eq_zero.mpr (fun a ha => by simpa using h a ha)
  rw [hc]
  simp

/-! ### C5 -/

/-- C5 (amended): for a chained, wall-consistent, ordered table,
`convert` applied to the result of `_normalize` reproduces the original
wall-clock reading exactly whenever the naive reading lies strictly inside a
period bounded below by a transition: either strictly between two
consecutive transitions with the later one not the last entry (above both
wall boundaries of the earlier, below both wall boundaries of the later), or
strictly above both wall boundaries of the last transition of a
multi-transition table — provided, in each case, the one-second
negative-timestamp corrections cannot fire: the governing transition's
instant is non-negative, or the reading is a whole second.  (Elsewhere the
source diverges: the pre-history branch breaks the wall fields — see the
counterexample — the period directly below the last transition re-localizes
with the wrong type, fractional pre-epoch readings are shifted by the
corrections, and readings after a sole transition take the skipped-time
branch.) -/
theorem roundTripNonTransitioning
    (tz : Timezone) (naive : ℚ)
    (hord : transOrdered tz.transitions)
    (hwall : wallConsistent tz.transitions)
    (hchain : typesChained tz.transitions)
    (hpos :
      (∃ A prev t B, tz.transitions = A ++ prev :: t :: B ∧ B ≠ [] ∧
        prev.time ≤ naive ∧ prev.pre_time < naive ∧
        naive < t.time ∧ naive < t.pre_time ∧
        (0 ≤ prev.unix_time ∨ naive = (⌊naive⌋ : ℚ))) ∨
      (∃ A last, tz.transitions = A ++ [last] ∧ A ≠ [] ∧
        last.time < naive ∧ last.pre_time < naive ∧
        (0 ≤ last.unix_time ∨ naive = (⌊naive⌋ : ℚ)))) :
    Except.map DateTime.wall ((tz._normalize ⟨naive, none⟩).bind tz.convert) =
      Except.ok naive := by
  rcases hpos with ⟨A, prev, t, B, hts, hB, hp1, hp2, hq1, hq2, hsafe⟩ |
    ⟨A, tlast, hts, hA, h1, h2, hsafe⟩
  · -- Interior between two consecutive transitions, the later not the last.
    have hprevMem : prev ∈ tz.transitions := by rw [hts]; simp
    have htMem : t ∈ tz.transitions := by rw [hts]; simp
    have hwp := hwall prev hprevMem
    have hwt := hwall t htMem
    have hadj : t.pre_transition_type = prev.transition_type := by
      have hc := hchain
      unfold typesChained at hc
      rw [hts] at hc
      exact chain'_middle A hc
    have hadjQ : (t.pre_transition_type.utc_offset : ℚ)
        = (prev.transition_type.utc_offset : ℚ) := by rw [hadj]
    have hordC := hord
    unfold transOrdered at hordC
    rw [hts] at hordC
    have hprevT : transLt prev t :=
      pairwise_mid_right hordC t (List.mem_cons_self t B)
    -- The resolved instant.
    set u : ℚ := (t.unix_time : ℚ) + (naive - t.pre_time) with hu
    have huval : u = naive - (t.pre_transition_type.utc_offset : ℚ) := by
      rw [hu, hwt.2]; ring
    have hprevLe : (prev.unix_time : ℚ) ≤ u := by
      have h1 : prev.time = (prev.unix_time : ℚ) + (prev.transition_type.utc_offset : ℚ) :=
        hwp.1
      rw [huval, hadjQ]
      linarith [hp1, h1.symm.le, h1.le]
    have htGt : u < (t.unix_time : ℚ) := by
      rw [huval]
      have h2 : t.pre_time = (t.unix_time : ℚ) + (t.pre_transition_type.utc_offset : ℚ) :=
        hwt.2
      linarith [hq2]
    -- Neither one-second correction can fire.
    have hcorrA : ¬(((-1 : ℚ) < naive - t.pre_time ∧ naive - t.pre_time < 0) ∧
        t.unix_time < 0) := by
      rcases hsafe with hnn | hint
      · rintro ⟨-, hneg⟩
        have hlt : prev.unix_time < t.unix_time := hprevT.1
        omega
      · rintro ⟨⟨hgt, hlt⟩, -⟩
        have hcast : ((⌊naive⌋ - t.unix_time - t.pre_transition_type.utc_offset : ℤ) : ℚ)
            = naive - t.pre_time := by
          rw [hwt.2]
          push_cast
          rw [← hint]
          ring
        rw [← hcast] at hgt hlt
        have hgt' : (-1 : ℤ) < ⌊naive⌋ - t.unix_time - t.pre_transition_type.utc_offset := by
          exact_mod_cast hgt
        have hlt' : ⌊naive⌋ - t.unix_time - t.pre_transition_type.utc_offset < 0 := by
          exact_mod_cast hlt
        omega
    -- Normalization: the interior branch, exact.
    have hres : tz.normalizeResolve naive = (u, t.pre_transition_type, none) := by
      rw [normalizeResolve_interior tz A prev t B naive hts hB hord hp1 hp2 hq1 hq2]
      rw [if_neg hcorrA]
    have hnorm : tz._normalize ⟨naive, none⟩ =
        Except.ok (tz._to_local_time u t.pre_transition_type none) := by
      unfold Timezone._normalize
      simp only [Option.isSome_none, Bool.false_eq_true, if_false, hres]
    -- The produced datetime.
    set info1 : TimezoneInfo :=
      ⟨tz.name, t.pre_transition_type.utc_offset, t.pre_transition_type.is_dst,
        t.pre_transition_type.abbreviation⟩ with hinfo1
    have hd1 : tz._to_local_time u t.pre_transition_type none =
        ⟨u + (t.pre_transition_type.utc_offset : ℚ), some info1⟩ := rfl
    have hwalleq : u + (t.pre_transition_type.utc_offset : ℚ) = naive := by
      rw [huval]; ring
    -- Re-localization: the timestamp equals the resolved instant.
    have hT : Timezone._get_timestamp
        ⟨u + (t.pre_transition_type.utc_offset : ℚ), some info1⟩ info1 = u := by
      unfold Timezone._get_timestamp
      have heq : u + (t.pre_transition_type.utc_offset : ℚ) - (info1.offsetSeconds : ℚ)
          = u := by rw [hinfo1]; ring
      rw [if_neg (by
        rintro ⟨hm, hlt⟩
        rw [heq] at hlt
        rcases hsafe with hnn | hint
        · have hnn' : (0 : ℚ) ≤ (prev.unix_time : ℚ) := by exact_mod_cast hnn
          linarith [hprevLe]
        · have hdeq : (⟨u + (t.pre_transition_type.utc_offset : ℚ), some info1⟩ : DateTime)
              = ⟨naive, some info1⟩ := by rw [hwalleq]
          rw [hdeq] at hm
          have hmic : DateTime.microsecond ⟨naive, some info1⟩ = 0 := by
            unfold DateTime.microsecond
            have h0 : naive - ((⌊naive⌋ : ℤ) : ℚ) = 0 := sub_eq_zero_of_eq hint
            rw [show (⟨naive, some info1⟩ : DateTime).wall = naive from rfl, h0]
            norm_num
          rw [hmic] at hm
          exact absurd hm (lt_irrefl 0))]
      exact heq
    -- The selected type on the way back is `prev`'s post-transition type.
    have hAprev : ∀ a ∈ A, transLt a prev := pairwise_mid_left hordC
    have htB2 : ∀ b ∈ B, transLt t b := by
      have h2 : ((A ++ [prev]) ++ t :: B).Pairwise transLt := by simpa using hordC
      exact pairwise_mid_right h2
    have hct : tz.convertType u = prev.transition_type := by
      refine convertType_mid tz A prev (t :: B) u hts ?_ hprevLe ?_
      · intro a ha
        exact le_trans (by exact_mod_cast (hAprev a ha).1.le) hprevLe
      · intro b hb
        rcases List.mem_cons.mp hb with hb | hb
        · subst hb; exact not_le.mpr htGt
        · refine not_le.mpr (lt_trans htGt ?_)
          exact_mod_cast (htB2 b hb).1
    -- Assemble the round trip.
    rw [hnorm, hd1]
    show Except.map DateTime.wall
        (Except.ok (tz._to_local_time
          (Timezone._get_timestamp
            ⟨u + (t.pre_transition_type.utc_offset : ℚ), some info1⟩ info1)
          (tz.convertType
            (Timezone._get_timestamp
              ⟨u + (t.pre_transition_type.utc_offset : ℚ), some info1⟩ info1))
          none)) = Except.ok naive
    rw [hT, hct]
    show Except.ok (u + (prev.transition_type.utc_offset : ℚ)) = Except.ok naive
    have hfin : u + (prev.transition_type.utc_offset : ℚ) = naive := by
      rw [huval, hadjQ]; ring
    rw [hfin]
  · -- Strictly after both windows of the last transition, table length ≥ 2.
    rcases A with _ | ⟨a0, A'⟩
    · exact absurd rfl hA
    have hts' : tz.transitions = a0 :: (A' ++ tlast :: []) := by simpa using hts
    have hlastMem : tlast ∈ tz.transitions := by rw [hts]; simp
    have hwl := hwall tlast hlastMem
    have hordC := hord
    unfold transOrdered at hordC
    rw [hts] at hordC
    have hAl : ∀ a ∈ a0 :: A', transLt a tlast := pairwise_mid_left hordC
    have hb : ¬ naive < a0.time :=
      not_lt.mpr (le_of_lt (lt_of_le_of_lt (hAl a0 (List.mem_cons_self a0 A')).2.1 h1))
    -- Normalization: the after-end branch, exact (it has no correction).
    have hres : tz.normalizeResolve naive =
        ((tlast.unix_time : ℚ) + (naive - tlast.time), tlast.transition_type, none) := by
      rw [normalizeResolve_cons tz a0 (A' ++ tlast :: []) hts' naive]
      have hlastT : (a0 :: (A' ++ tlast :: [])).getLast (List.cons_ne_nil _ _) = tlast := by
        have e1 : (a0 :: (A' ++ tlast :: [])).getLast (List.cons_ne_nil _ _)
            = (A' ++ tlast :: []).getLast (by simp) := List.getLast_cons _
        exact e1.trans (getLast_append_cons_nil A' tlast _)
      rw [hlastT]
      rw [normTr_after_end _ _ _ _ hb (not_lt.mpr (le_of_lt h1))]
      unfold normOutcome
      rw [if_neg (Ne.symm (transLt_ne (hAl a0 (List.mem_cons_self a0 A')))), if_pos rfl,
        if_pos h2]
    set u : ℚ := (tlast.unix_time : ℚ) + (naive - tlast.time) with hu
    have huval : u = naive - (tlast.transition_type.utc_offset : ℚ) := by
      rw [hu, hwl.1]; ring
    have hlastLt : (tlast.unix_time : ℚ) < u := by
      rw [hu]; linarith [h1]
    have hnorm : tz._normalize ⟨naive, none⟩ =
        Except.ok (tz._to_local_time u tlast.transition_type none) := by
      unfold Timezone._normalize
      simp only [Option.isSome_none, Bool.false_eq_true, if_false, hres]
    set info2 : TimezoneInfo :=
      ⟨tz.name, tlast.transition_type.utc_offset, tlast.transition_type.is_dst,
        tlast.transition_type.abbreviation⟩ with hinfo2
    have hd1 : tz._to_local_time u tlast.transition_type none =
        ⟨u + (tlast.transition_type.utc_offset : ℚ), some info2⟩ := rfl
    have hwalleq : u + (tlast.transition_type.utc_offset : ℚ) = naive := by
      rw [huval]; ring
    have hT : Timezone._get_timestamp
        ⟨u + (tlast.transition_type.utc_offset : ℚ), some info2⟩ info2 = u := by
      unfold Timezone._get_timestamp
      have heq : u + (tlast.transition_type.utc_offset : ℚ) - (info2.offsetSeconds : ℚ)
          = u := by rw [hinfo2]; ring
      rw [if_neg (by
        rintro ⟨hm, hlt⟩
        rw [heq] at hlt
        rcases hsafe with hnn | hint
        · have hnn' : (0 : ℚ) ≤ (tlast.unix_time : ℚ) := by exact_mod_cast hnn
          linarith [hlastLt]
        · have hdeq : (⟨u + (tlast.transition_type.utc_offset : ℚ), some info2⟩ : DateTime)
              = ⟨naive, some info2⟩ := by rw [hwalleq]
          rw [hdeq] at hm
          have hmic : DateTime.microsecond ⟨naive, some info2⟩ = 0 := by
            unfold DateTime.microsecond
            have h0 : naive - ((⌊naive⌋ : ℤ) : ℚ) = 0 := sub_eq_zero_of_eq hint
            rw [show (⟨naive, some info2⟩ : DateTime).wall = naive from rfl, h0]
            norm_num
          rw [hmic] at hm
          exact absurd hm (lt_irrefl 0))]
      exact heq
    -- Re-localization selects the last transition again.
    have hct : tz.convertType u = tlast.transition_type := by
      refine convertType_mid tz (a0 :: A') tlast [] u hts ?_ (le_of_lt hlastLt) ?_
      · intro a ha
        have hc : (a.unix_time : ℚ) < (tlast.unix_time : ℚ) := by
          exact_mod_cast (hAl a ha).1
        linarith [hlastLt]
      · intro b hb
        exact absurd hb (List.not_mem_nil b)
    -- Assemble the round trip.
    rw [hnorm, hd1]
    show Except.map DateTime.wall
        (Except.ok (tz._to_local_time
          (Timezone._get_timestamp
            ⟨u + (tlast.transition_type.utc_offset : ℚ), some info2⟩ info2)
          (tz.convertType
            (Timezone._get_timestamp
              ⟨u + (tlast.transition_type.utc_offset : ℚ), some info2⟩ info2))
          none)) = Except.ok naive
    rw [hT, hct]
    show Except.ok (u + (tlast.transition_type.utc_offset : ℚ)) = Except.ok naive
    rw [hwalleq]

/-- C5 counterexample: in `zoneW` the naive reading −5000 lies strictly
inside the non-transitioning pre-history period (below both wall boundaries
of the first transition), yet `convert (normalize (−5000))` produces wall
reading 2200, not −5000: the pre-history branch computes the instant with
the default offset but materializes the wall fields with the first
transition's post-transition type. -/
theorem roundTripPreHistoryDiverges :
    transOrdered zoneW.transitions ∧ wallConsistent zoneW.transitions ∧
      typesChained zoneW.transitions ∧
      zoneW.transitions.head? = some w0 ∧
      (-5000 : ℚ) < w0.time ∧ (-5000 : ℚ) < w0.pre_time ∧
      Except.map DateTime.wall ((zoneW._normalize ⟨-5000, none⟩).bind zoneW.convert) =
        Except.ok 2200 ∧
      (2200 : ℚ) ≠ -5000 := by
  refine ⟨?_, ?_, ?_, rfl, ?_, ?_, ?_, ?_⟩
  · norm_num [transOrdered, transLt, zoneW, w0, w1, w2, ttOff, List.pairwise_cons]
  · norm_num [wallConsistent, zoneW, w0, w1, w2, ttOff]
  · norm_num [typesChained, zoneW, w0, w1, w2, ttOff, List.chain'_cons]
  · norm_num [w0]
  · norm_num [w0]
  · norm_num [Timezone._normalize, Timezone.normalizeResolve, normOutcome, normTr,
      bisect_right, Timezone._to_local_time, Breakdown.local_time, Timezone.convert,
      Timezone._convert, Timezone._get_timestamp, Timezone.convertType, bisectRightInstant,
      DateTime.microsecond, Except.map, Except.bind, zoneW, w0, w1, w2, ttOff,
      List.countP, List.countP.go]
  · norm_num

/-- Witness for C5: in `zoneW`, the interior reading 5000, the after-last
whole-second reading 200000 and the after-last fractional reading 200000.5
all round-trip. -/
theorem roundTripNonTransitioning_witness :
    Except.map DateTime.wall ((zoneW._normalize ⟨5000, none⟩).bind zoneW.convert) =
        Except.ok 5000 ∧
      Except.map DateTime.wall ((zoneW._normalize ⟨200000, none⟩).bind zoneW.convert) =
        Except.ok 200000 ∧
      Except.map DateTime.wall
          ((zoneW._normalize ⟨(400001 / 2 : ℚ), none⟩).bind zoneW.convert) =
        Except.ok (400001 / 2) := by
  refine ⟨?_, ?_, ?_⟩
  · exact roundTripNonTransitioning zoneW 5000
      (by norm_num [transOrdered, transLt, zoneW, w0, w1, w2, ttOff, List.pairwise_cons])
      (by norm_num [wallConsistent, zoneW, w0, w1, w2, ttOff])
      (by norm_num [typesChained, zoneW, w0, w1, w2, ttOff, List.chain'_cons])
      (Or.inl ⟨[], w0, w1, [w2], rfl, by simp, by norm_num [w0], by norm_num [w0],
        by norm_num [w1], by norm_num [w1], Or.inl (by norm_num [w0])⟩)
  · exact roundTripNonTransitioning zoneW 200000
      (by norm_num [transOrdered, transLt, zoneW, w0, w1, w2, ttOff, List.pairwise_cons])
      (by norm_num [wallConsistent, zoneW, w0, w1, w2, ttOff])
      (by norm_num [typesChained, zoneW, w0, w1, w2, ttOff, List.chain'_cons])
      (Or.inr ⟨[w0, w1], w2, rfl, by simp, by norm_num [w2], by norm_num [w2],
        Or.inl (by norm_num [w2])⟩)
  · exact roundTripNonTransitioning zoneW (400001 / 2)
      (by norm_num [transOrdered, transLt, zoneW, w0, w1, w2, ttOff, List.pairwise_cons])
      (by norm_num [wallConsistent, zoneW, w0, w1, w2, ttOff])
      (by norm_num [typesChained, zoneW, w0, w1, w2, ttOff, List.chain'_cons])
      (Or.inr ⟨[w0, w1], w2, rfl, by simp, by norm_num [w2], by norm_num [w2],
        Or.inl (by norm_num [w2])⟩)

/-! ### C3 -/

/-- Reference selection following the spec's words (§4.4): "the last
transition with `instant ≤ target`", if any. -/
def lastTransitionLE (ts : List Transition) (x : ℚ) : Option Transition :=
  (ts.filter (fun t => decide ((t.unix_time : ℚ) ≤ x))).getLast?

theorem convertType_characterization (tz : Timezone) (x : ℚ)
    (hord : transOrdered tz.transitions) :
    tz.convertType x =
      (match lastTransitionLE tz.transitions x with
        | some tr => tr.transition_type
        | none =>
          match tz.transitions with
          | [] => tz.default_transition_type
          | t0 :: _ => t0.transition_type) := by
  rcases last_sat_split (fun t => decide ((t.unix_time : ℚ) ≤ x)) tz.transitions with
    hall | ⟨l1, tr, l2, hdec, htr, hl2⟩
  · have hfil : lastTransitionLE tz.transitions x = none := by
      unfold lastTransitionLE
      rw [List.filter_eq_nil_iff.mpr hall]
      rfl
    rw [hfil]
    rcases hl : tz.transitions with _ | ⟨t0, rest⟩
    · unfold Timezone.convertType
      rw [hl]
    · rw [convertType_before tz t0 rest x hl
        (by rw [← hl]; intro a ha; simpa using hall a ha)]
  · have hfil : lastTransitionLE tz.transitions x = some tr := by
      unfold lastTransitionLE
      rw [hdec, List.filter_append]
      have h1 : List.filter (fun t => decide ((t.unix_time : ℚ) ≤ x)) (tr :: l2) = [tr] := by
        simp only [List.filter_cons, htr, if_true]
        rw [List.filter_eq_nil_iff.mpr hl2]
      rw [h1]
      exact List.getLast?_concat _
    rw [hfil]
    rw [hdec] at hord
    unfold transOrdered at hord
    refine convertType_mid tz l1 tr l2 x hdec ?_ (by simpa using htr)
      (fun b hb => by simpa using hl2 b hb)
    intro a ha
    have h1 : (a.unix_time : ℚ) ≤ (tr.unix_time : ℚ) := by
      exact_mod_cast (pairwise_mid_left hord a ha).1.le
    exact le_trans h1 (by simpa using htr)

/-- C3 (amended): re-localization computes the timestamp from the input's own
offset tag (with the one-second fractional pre-epoch adjustment of
`_get_timestamp`) and tags the result with the post-transition type of the
last transition whose instant is ≤ that timestamp; when no transition
qualifies, the *first* transition's post-transition type is used for a
non-empty table, and the zone's default type only when the table is
empty. -/
theorem convertSelectsLastTransition (tz : Timezone) (w : ℚ) (info : TimezoneInfo)
    (hord : transOrdered tz.transitions) :
    tz._convert ⟨w, some info⟩ =
      Except.ok (tz._to_local_time (Timezone._get_timestamp ⟨w, some info⟩ info)
        (match lastTransitionLE tz.transitions (Timezone._get_timestamp ⟨w, some info⟩ info) with
          | some tr => tr.transition_type
          | none =>
            match tz.transitions with
            | [] => tz.default_transition_type
            | t0 :: _ => t0.transition_type) none) := by
  have hchar := convertType_characterization tz
    (Timezone._get_timestamp ⟨w, some info⟩ info) hord
  show Except.ok (tz._to_local_time (Timezone._get_timestamp ⟨w, some info⟩ info)
      (tz.convertType (Timezone._get_timestamp ⟨w, some info⟩ info)) none) = _
  rw [hchar]

/-- Witness for C3: converting wall 5000 tagged with offset 3600 in `zoneW`
lands at instant 1400, inside the first transition's period. -/
theorem convertSelectsLastTransition_witness :
    zoneW._convert ⟨5000, some ⟨"W", 3600, false, ""⟩⟩ =
      Except.ok ⟨5000, some ⟨"W", 3600, false, ""⟩⟩ := by
  have h := convertSelectsLastTransition zoneW 5000 ⟨"W", 3600, false, ""⟩
    (by norm_num [transOrdered, transLt, zoneW, w0, w1, w2, ttOff, List.pairwise_cons])
  rw [h]
  norm_num [lastTransitionLE, Timezone._get_timestamp, DateTime.microsecond,
    Timezone._to_local_time, Breakdown.local_time, zoneW, w0, w1, w2, ttOff,
    List.filter]

/-- C3 counterexample: in `zoneW` the timestamp −100 precedes every
transition instant, yet `_convert` does not use the zone's `defaultType`
(offset 0): the clamped index selects the *first* transition's
post-transition type (offset 3600). -/
theorem convertBeforeFirstDiverges :
    transOrdered zoneW.transitions ∧
      (∀ t ∈ zoneW.transitions, ¬ ((t.unix_time : ℚ) ≤ -100)) ∧
      zoneW._convert ⟨-100, some ⟨"W", 0, false, ""⟩⟩ =
        Except.ok ⟨3500, some ⟨"W", 3600, false, ""⟩⟩ ∧
      zoneW.default_transition_type.utc_offset = 0 ∧ (3600 : Int) ≠ 0 := by
  refine ⟨?_, ?_, ?_, ?_, ?_⟩
  · norm_num [transOrdered, transLt, zoneW, w0, w1, w2, ttOff, List.pairwise_cons]
  · norm_num [zoneW, w0, w1, w2, ttOff]
  · norm_num [Timezone._convert, Timezone._get_timestamp, DateTime.microsecond,
      Timezone.convertType, bisectRightInstant, Timezone._to_local_time,
      Breakdown.local_time, zoneW, w0, w1, w2, ttOff, List.countP, List.countP.go]
  · norm_num [zoneW, ttOff]
  · norm_num

/-! ### C6 and C10 -/

/-- C6: `_normalize` on a tagged datetime and `_convert` on an untagged one
both fail with the source's `ValueError`, and no result datetime is
produced. -/
theorem invalidArgumentErrors (tz : Timezone) (w : ℚ) (info : TimezoneInfo) :
    tz._normalize ⟨w, some info⟩ =
        Except.error "A datetime with a tzinfo cannot be normalized. Use _convert() instead." ∧
      tz._convert ⟨w, none⟩ =
        Except.error "A datetime without a tzinfo cannot be converted. Use _normalize() instead." :=
  ⟨rfl, rfl⟩

/-- C10: the public `convert` dispatches on the presence of `tzinfo`, so both
private error branches are unreachable through it and it always produces a
result. -/
theorem convertNeverInvalidArgument (tz : Timezone) (dt : DateTime) :
    ∃ d, tz.convert dt = Except.ok d := by
  rcases dt with ⟨w, _ | info⟩
  · exact ⟨_, rfl⟩
  · exact ⟨_, rfl⟩

/-! ### C7 and C8 -/

/-- C7: a second `load` of the same name returns the identical cached zone
and leaves the cache unchanged — no second construction happens. -/
theorem loadCachesOnce (loader : LoaderFn) (cache : List (String × Timezone))
    (name : String) (z : Timezone) (c' : List (String × Timezone))
    (h : Timezone.load loader cache name = (Except.ok z, c')) :
    Timezone.load loader c' name = (Except.ok z, c') ∧ c'.lookup name = some z := by
  unfold Timezone.load at h ⊢
  rcases hc : cache.lookup name with _ | z0
  · rw [hc] at h
    rcases hl : loader name with _ | ⟨trs, tts, dflt⟩
    · rw [hl] at h
      simp at h
    · rw [hl] at h
      simp only [Prod.mk.injEq, Except.ok.injEq] at h
      obtain ⟨hz, hc'⟩ := h
      subst hz
      subst hc'
      constructor
      · simp [List.lookup]
      · simp [List.lookup]
  · rw [hc] at h
    simp only [Prod.mk.injEq, Except.ok.injEq] at h
    obtain ⟨hz, hc'⟩ := h
    subst hz
    subst hc'
    rw [hc]
    exact ⟨rfl, rfl⟩


/-- A loader with data for the single name "W". -/
def wloader : LoaderFn := fun n =>
  if n = "W" then some ([w0, w1, w2], [], ttOff 0) else none

/-- Witness for C7: re-loading "W" from a cache already holding it returns
the identical zone and cache. -/
theorem loadCachesOnce_witness :
    Timezone.load wloader [("W", zoneW)] "W" = (Except.ok zoneW, [("W", zoneW)]) ∧
      ([("W", zoneW)]).lookup "W" = some zoneW :=
  loadCachesOnce wloader [] "W" zoneW [("W", zoneW)] rfl

/-- C8: `load` fails with `ZoneNotFound` exactly when the name is neither
cached nor known to the loader, and that failure leaves the cache
unchanged. -/
theorem zoneNotFoundExactly (loader : LoaderFn) (cache : List (String × Timezone))
    (name : String) :
    ((Timezone.load loader cache name).1 = Except.error "ZoneNotFound"
        ↔ cache.lookup name = none ∧ loader name = none) ∧
      (cache.lookup name = none → loader name = none →
        Timezone.load loader cache name = (Except.error "ZoneNotFound", cache)) := by
  constructor
  · constructor
    · intro h
      unfold Timezone.load at h
      rcases hc : cache.lookup name with _ | z0
      · rw [hc] at h
        rcases hl : loader name with _ | ⟨trs, tts, dflt⟩
        · exact ⟨rfl, rfl⟩
        · rw [hl] at h
          simp at h
      · rw [hc] at h
        simp at h
    · rintro ⟨hc, hl⟩
      unfold Timezone.load
      rw [hc, hl]
  · intro hc hl
    unfold Timezone.load
    rw [hc, hl]

/-- A loader with no data for any name. -/
def wloaderNone : LoaderFn := fun _ => none

/-- Witness for C8: loading an unknown name from an empty cache fails with
`ZoneNotFound` and leaves the cache empty. -/
theorem zoneNotFoundExactly_witness :
    Timezone.load wloaderNone [] "Nowhere" = (Except.error "ZoneNotFound", []) :=
  (zoneNotFoundExactly wloaderNone [] "Nowhere").2 rfl rfl

/-! ### C9 -/

/-- C9 counterexample: a datetime produced by the UTC singleton's
`_normalize` is tagged with abbreviation "GMT" (the default transition
type's), not "UTC" (which only the exported `UTC` tzinfo constant
carries). -/
theorem utcProducesGMTAbbreviation :
    UTCTimezone._normalize ⟨0, none⟩ =
        Except.ok ⟨0, some ⟨"UTC", 0, false, "GMT"⟩⟩ ∧
      UTC.abbreviation = "UTC" ∧ ("GMT" : String) ≠ "UTC" := by
  refine ⟨?_, rfl, by decide⟩
  norm_num [Timezone._normalize, Timezone.normalizeResolve, Timezone._to_local_time,
    Breakdown.local_time, UTCTimezone]

/-- C9 (amended): the exported `UTC` constant carries offset 0, `isDst =
false` and abbreviation "UTC"; the singleton zone has no transitions and
default type `TransitionType(0, False, 'GMT')`; and every datetime the zone
produces — through `_normalize` or `_convert` — is tagged with offset 0,
`isDst = false` and abbreviation "GMT". -/
theorem utcSingletonResolved :
    UTC.offsetSeconds = 0 ∧ UTC.isDst = false ∧ UTC.abbreviation = "UTC" ∧
      UTCTimezone.transitions = [] ∧
      UTCTimezone.default_transition_type = ⟨0, false, "GMT"⟩ ∧
      (∀ q : ℚ, UTCTimezone._normalize ⟨q, none⟩ =
        Except.ok ⟨q, some ⟨"UTC", 0, false, "GMT"⟩⟩) ∧
      (∀ (q : ℚ) (info : TimezoneInfo),
        Except.map DateTime.tzinfo (UTCTimezone._convert ⟨q, some info⟩) =
          Except.ok (some ⟨"UTC", 0, false, "GMT"⟩)) := by
  refine ⟨rfl, rfl, rfl, rfl, rfl, ?_, ?_⟩
  · intro q
    simp [Timezone._normalize, Timezone.normalizeResolve, Timezone._to_local_time,
      Breakdown.local_time, UTCTimezone]
  · intro q info
    rfl
